import Mathlib

/-!
# Verification of the crossword CSP solver (`src/generate.py`)

Shallow embedding of `CrosswordCreator` from `src/generate.py`:
node consistency, the AC-3 propagator (`revise` / `ac3`), the assignment
checker (`consistent`, `assignment_complete`), the heuristics
(`order_domain_values`, `select_unassigned_variable`), the backtracking
search (`backtrack`) and the entry point (`solve`).

Python sets and dicts are modelled by lists (a list records the iteration
order of the corresponding set or dict); the per-slot domain store is a
function from slots to word lists; the worklist deque, used by the source
as a stack (`append`/`pop` both act on the right end), is a list whose
head is the top of the stack.  The two recursive loops (`ac3`'s worklist
loop and `backtrack`) take explicit fuel; sufficient fuel is computed and
proved below (`ac3Loop_isSome`, `backtrackFuel_isSome`), so the wrappers
`ac3` and `backtrack` are total functions that agree with the source's
loops.
-/

set_option maxHeartbeats 1000000

namespace Generate

/-- Orientation of a slot. -/
inductive Direction where
  | across
  | down
deriving DecidableEq, Repr

/-- Modelled from the spec: a Slot (`Variable` in the source) is an identity
value with position, orientation and length, compared structurally
(spec §3 "Slot").  The class itself lives in `crossword.py`, which is not
under `src/`. -/
structure Variable where
  i : Nat
  j : Nat
  direction : Direction
  length : Nat
deriving DecidableEq, Repr

/-- A candidate word, as its list of characters. -/
abbrev Word := List Char

/-- Modelled from the spec: the Puzzle Model (`crossword.py`, not under
`src/`): the slot list, the vocabulary, and the overlap relation mapping an
ordered pair of slots to the shared character positions or `none`
(spec §3 "Overlap Relation", §6 "Puzzle Model input").  Lists record the
iteration order of the corresponding Python collections. -/
structure Crossword where
  «variables» : List Variable
  words : List Word
  overlaps : Variable → Variable → Option (Nat × Nat)

/-- Modelled from the spec: slot `v` is a neighbor of `var` iff they are
distinct and overlap (spec §3 "Neighbor Relation"). -/
def Crossword.neighbors (cw : Crossword) (var : Variable) : List Variable :=
  cw.variables.filter (fun v => (v != var) && (cw.overlaps var v).isSome)

/-- The per-slot domain store (`self.domains`), a mapping from slot to the
list of still-possible words. -/
abbrev Domains := Variable → List Word

/-- A (partial) assignment, a slot→word mapping in insertion order
(Python dict). -/
abbrev Assignment := List (Variable × Word)

/-- Pointwise update of the domain store at one slot. -/
def updateDomain (d : Domains) (x : Variable) (ws : List Word) : Domains :=
  fun v => if v = x then ws else d v

/-- `CrosswordCreator.__init__`: every slot's domain starts as a copy of the
full vocabulary. -/
def initDomains (cw : Crossword) : Domains := fun _ => cw.words

/-- `CrosswordCreator.enforce_node_consistency`: keep in each slot's domain
only the words whose length equals the slot's length. -/
def enforce_node_consistency (d : Domains) : Domains :=
  fun v => (d v).filter (fun w => w.length == v.length)

/-- `CrosswordCreator.revise(x, y)`: if `x` and `y` overlap at `(i, j)`,
drop from `x`'s domain every word with no supporting word in `y`'s domain;
the returned flag says whether anything was removed. -/
def revise (cw : Crossword) (d : Domains) (x y : Variable) : Domains × Bool :=
  match cw.overlaps x y with
  | none => (d, false)
  | some (i, j) =>
    let keep := (d x).filter
      (fun wx => (d y).any (fun wy => wx.getD i ' ' == wy.getD j ' '))
    (updateDomain d x keep, decide (keep.length < (d x).length))

/-- An ordered pair of slots on the AC-3 worklist. -/
abbrev Arc := Variable × Variable

/-- The arcs `(var, neighbor)` for every slot and each of its neighbors, in
generation order (the seed of `ac3`'s worklist when no arcs are given). -/
def allArcs (cw : Crossword) : List Arc :=
  cw.variables.flatMap (fun v => (cw.neighbors v).map (fun n => (v, n)))

/-- The worklist loop of `CrosswordCreator.ac3`, with explicit fuel.  The
head of the list is the right end of the source's deque (`pop` and `append`
both act there).  Arcs `(z, x)` for the neighbors `z ≠ y` of a revised `x`
are appended in neighbor order, hence pushed reversed. -/
def ac3Loop (cw : Crossword) : Nat → Domains → List Arc → Option (Domains × Bool)
  | 0, _, _ => none
  | _ + 1, d, [] => some (d, true)
  | fuel + 1, d, (x, y) :: rest =>
    match revise cw d x y with
    | (d1, true) =>
      if (d1 x).length = 0 then some (d1, false)
      else ac3Loop cw fuel d1
        ((((cw.neighbors x).filter (fun z => z != y)).map (fun z => (z, x))).reverse ++ rest)
    | (_, false) => ac3Loop cw fuel d rest

/-- The initial worklist of `ac3`: the guard `if not arcs:` replaces an
absent **or empty** arcs argument by all arcs of the puzzle; a non-empty
caller list is loaded into the deque left to right, so its right end (the
head here) is the last element. -/
def initialWorklist (cw : Crossword) (arcs : Option (List Arc)) : List Arc :=
  match arcs with
  | none => (allArcs cw).reverse
  | some l => if l.isEmpty then (allArcs cw).reverse else l.reverse

/-- Total size of the domains of a list of slots (the termination measure of
the worklist loop). -/
def totalSize (d : Domains) (l : List Variable) : Nat :=
  (l.map (fun v => (d v).length)).sum

/-- Fuel sufficient for `ac3Loop` (proved below): one unit per initial arc,
plus `|variables| + 1` units per word that propagation can ever delete. -/
def ac3Bound (cw : Crossword) (d : Domains) (W : List Arc) : Nat :=
  W.length + totalSize d (W.map Prod.fst ++ cw.variables) * (cw.variables.length + 1) + 1

/-- `CrosswordCreator.ac3`: run the worklist loop on the initial worklist;
returns the final domain store and whether no domain was emptied. -/
def ac3 (cw : Crossword) (d : Domains) (arcs : Option (List Arc)) : Domains × Bool :=
  (ac3Loop cw (ac3Bound cw d (initialWorklist cw arcs)) d (initialWorklist cw arcs)).getD
    (d, false)

/-- Key membership in an assignment (Python's `var in assignment`). -/
def assignedb (a : Assignment) (v : Variable) : Bool :=
  a.any (fun p => p.1 == v)

/-- Python's `assignment[var] = value`: overwrite in place if the key is
present, else append. -/
def dictSet (a : Assignment) (k : Variable) (w : Word) : Assignment :=
  if a.any (fun p => p.1 == k) then a.map (fun p => if p.1 == k then (k, w) else p)
  else a ++ [(k, w)]

/-- Python's `del assignment[var]`. -/
def dictDel (a : Assignment) (k : Variable) : Assignment :=
  a.filter (fun p => p.1 != k)

/-- `CrosswordCreator.assignment_complete`: every slot of the puzzle has an
assigned word. -/
def assignment_complete (cw : Crossword) (a : Assignment) : Bool :=
  cw.variables.all (fun v => assignedb a v)

/-- `CrosswordCreator.consistent`: every assigned word has its slot's
length, no word is assigned twice, and every assigned pair of overlapping
slots agrees at the shared positions. -/
def consistent (cw : Crossword) (a : Assignment) : Bool :=
  a.all (fun p =>
    (p.2.length == p.1.length) &&
    decide ((a.map Prod.snd).count p.2 ≤ 1) &&
    (cw.neighbors p.1).all (fun nb =>
      match List.lookup nb a with
      | none => true
      | some w2 =>
        match cw.overlaps p.1 nb with
        | some (i, j) => p.2.getD i ' ' == w2.getD j ' '
        | none => true))

/-- The least-constraining-value count of `order_domain_values`: in how many
of `var`'s *unassigned* neighbors' domains does `w` occur. -/
def lcvKey (cw : Crossword) (d : Domains) (a : Assignment) (var : Variable) (w : Word) : Nat :=
  ((cw.neighbors var).filter (fun nb => !(assignedb a nb))).countP (fun nb => (d nb).contains w)

/-- Stable insertion of `w` behind the strictly smaller keys (Python's
stable `sorted`: an earlier element stays before equal keys). -/
def insertByKey (k : Word → Nat) (w : Word) : List Word → List Word
  | [] => [w]
  | v :: rest => if k v < k w then v :: insertByKey k w rest else w :: v :: rest

/-- Stable insertion sort by key (the behavior of Python's `sorted`). -/
def sortByKey (k : Word → Nat) : List Word → List Word
  | [] => []
  | w :: rest => insertByKey k w (sortByKey k rest)

/-- `CrosswordCreator.order_domain_values`: the slot's domain, sorted
ascending by the least-constraining-value count. -/
def order_domain_values (cw : Crossword) (d : Domains) (var : Variable) (a : Assignment) :
    List Word :=
  sortByKey (lcvKey cw d a var) (d var)

/-- The strict comparison of `select_unassigned_variable`'s key tuples
`(len(domain), -len(neighbors))`: smaller domain first, ties to the higher
degree. -/
def keyLt (cw : Crossword) (d : Domains) (x y : Variable) : Prop :=
  (d x).length < (d y).length ∨
    ((d x).length = (d y).length ∧ (cw.neighbors y).length < (cw.neighbors x).length)

instance (cw : Crossword) (d : Domains) (x y : Variable) : Decidable (keyLt cw d x y) := by
  unfold keyLt; infer_instance

/-- `CrosswordCreator.select_unassigned_variable`: the first unassigned slot
(in puzzle order) whose key is minimal — Python's `min` keeps the earliest
minimum.  `none` only when every slot is assigned (where the source never
calls it). -/
def select_unassigned_variable (cw : Crossword) (d : Domains) (a : Assignment) :
    Option Variable :=
  match cw.variables.filter (fun v => !(assignedb a v)) with
  | [] => none
  | v :: rest => some (rest.foldl (fun best x => if keyLt cw d x best then x else best) v)

/-- The `for value in order_domain_values(...)` loop of
`CrosswordCreator.backtrack`, with the recursive call abstracted as `bt`.
The result pairs the state of the (mutated, shared) assignment dict at
return with the success flag; `if result:` is the dict's truthiness, i.e.
success with a non-empty dict. -/
def tryValuesWith (bt : Assignment → Option (Assignment × Bool)) (cw : Crossword)
    (var : Variable) : List Word → Assignment → Option (Assignment × Bool)
  | [], a => some (a, false)
  | w :: rest, a =>
    if consistent cw (dictSet a var w) then
      match bt (dictSet a var w) with
      | none => none
      | some (a2, ok) =>
        if ok && !a2.isEmpty then some (a2, true)
        else tryValuesWith bt cw var rest (dictDel a2 var)
    else tryValuesWith bt cw var rest (dictDel (dictSet a var w) var)

/-- `CrosswordCreator.backtrack` with explicit fuel (one unit per recursion
level; the source recursion is bounded by the number of unassigned slots,
see `backtrackFuel_isSome`).  `some (a, true)` is Python's `return
assignment`; `some (a, false)` is `return None` with the dict restored to
`a`. -/
def backtrackFuel (cw : Crossword) (d : Domains) : Nat → Assignment → Option (Assignment × Bool)
  | 0, _ => none
  | fuel + 1, a =>
    if assignment_complete cw a then some (a, true)
    else
      match select_unassigned_variable cw d a with
      | none => some (a, false)
      | some var => tryValuesWith (backtrackFuel cw d fuel) cw var
          (order_domain_values cw d var a) a

/-- `CrosswordCreator.backtrack`, with the (sufficient, proved below) fuel
`|variables| + 1`. -/
def backtrack (cw : Crossword) (d : Domains) (a : Assignment) : Assignment × Bool :=
  (backtrackFuel cw d (cw.variables.length + 1) a).getD (a, false)

/-- The domain store that `solve` hands to the search: node consistency,
then `ac3` over all arcs (whose Boolean result the source discards). -/
def solveDomains (cw : Crossword) : Domains :=
  (ac3 cw (enforce_node_consistency (initDomains cw)) none).1

/-- `CrosswordCreator.solve`: node consistency, then `ac3` — whose Boolean
result the source discards — then backtracking search from the empty
assignment; `None` becomes `none`. -/
def solve (cw : Crossword) : Option Assignment :=
  match backtrack cw (solveDomains cw) [] with
  | (a, true) => some a
  | (_, false) => none

/-- Instrumented twin of `tryValuesWith`: how many recursive `backtrack`
invocations the loop makes (`btr` gives the recursion's result, `btc` the
count of invocations inside one recursive call, including itself). -/
def tryValuesCount (btr : Assignment → Option (Assignment × Bool)) (btc : Assignment → Nat)
    (cw : Crossword) (var : Variable) : List Word → Assignment → Nat
  | [], _ => 0
  | w :: rest, a =>
    if consistent cw (dictSet a var w) then
      match btr (dictSet a var w) with
      | none => btc (dictSet a var w)
      | some (a2, ok) =>
        if ok && !a2.isEmpty then btc (dictSet a var w)
        else btc (dictSet a var w) + tryValuesCount btr btc cw var rest (dictDel a2 var)
    else tryValuesCount btr btc cw var rest (dictDel (dictSet a var w) var)

/-- Instrumented twin of `backtrackFuel`: the number of `backtrack`
invocations (the call itself plus all nested recursive calls). -/
def backtrackFuelCount (cw : Crossword) (d : Domains) : Nat → Assignment → Nat
  | 0, _ => 1
  | fuel + 1, a =>
    1 + (if assignment_complete cw a then 0
      else
        match select_unassigned_variable cw d a with
        | none => 0
        | some var => tryValuesCount (backtrackFuel cw d fuel) (backtrackFuelCount cw d fuel)
            cw var (order_domain_values cw d var a) a)

/-- How many times `solve` invokes `backtrack` (at least the one call the
source makes unconditionally, whatever `ac3` returned). -/
def solveBacktrackCalls (cw : Crossword) : Nat :=
  backtrackFuelCount cw (solveDomains cw) (cw.variables.length + 1) []


/-! ## Lemmas about `revise` -/

theorem revise_none (cw : Crossword) (d : Domains) (x y : Variable)
    (h : cw.overlaps x y = none) : revise cw d x y = (d, false) := by
  unfold revise
  rw [h]

theorem revise_some (cw : Crossword) (d : Domains) (x y : Variable) (i j : Nat)
    (hov : cw.overlaps x y = some (i, j)) :
    revise cw d x y =
      (updateDomain d x
        ((d x).filter (fun wx => (d y).any (fun wy => wx.getD i ' ' == wy.getD j ' '))),
       decide (((d x).filter
        (fun wx => (d y).any (fun wy => wx.getD i ' ' == wy.getD j ' '))).length <
          (d x).length)) := by
  unfold revise
  rw [hov]

theorem revise_other (cw : Crossword) (d : Domains) (x y v : Variable) (hv : v ≠ x) :
    (revise cw d x y).1 v = d v := by
  cases hov : cw.overlaps x y with
  | none => rw [revise_none cw d x y hov]
  | some p =>
    obtain ⟨i, j⟩ := p
    rw [revise_some cw d x y i j hov]
    simp [updateDomain, hv]

theorem revise_fst_x (cw : Crossword) (d : Domains) (x y : Variable) (i j : Nat)
    (hov : cw.overlaps x y = some (i, j)) :
    (revise cw d x y).1 x =
      (d x).filter (fun wx => (d y).any (fun wy => wx.getD i ' ' == wy.getD j ' ')) := by
  rw [revise_some cw d x y i j hov]
  simp [updateDomain]

theorem revise_mem (cw : Crossword) (d : Domains) (x y : Variable) (i j : Nat)
    (hov : cw.overlaps x y = some (i, j)) (w : Word) :
    w ∈ (revise cw d x y).1 x ↔
      w ∈ d x ∧ ∃ v ∈ d y, w.getD i ' ' = v.getD j ' ' := by
  rw [revise_fst_x cw d x y i j hov]
  simp [List.mem_filter, List.any_eq_true]

theorem revise_subset (cw : Crossword) (d : Domains) (x y v : Variable) :
    (revise cw d x y).1 v ⊆ d v := by
  intro w hw
  by_cases hv : v = x
  · subst hv
    cases hov : cw.overlaps v y with
    | none => rw [revise_none cw d v y hov] at hw; exact hw
    | some p =>
      obtain ⟨i, j⟩ := p
      exact ((revise_mem cw d v y i j hov w).mp hw).1
  · rw [revise_other cw d x y v hv] at hw
    exact hw

theorem revise_length_le (cw : Crossword) (d : Domains) (x y v : Variable) :
    ((revise cw d x y).1 v).length ≤ (d v).length := by
  by_cases hv : v = x
  · subst hv
    cases hov : cw.overlaps v y with
    | none => rw [revise_none cw d v y hov]
    | some p =>
      obtain ⟨i, j⟩ := p
      rw [revise_fst_x cw d v y i j hov]
      exact (List.filter_sublist _).length_le
  · rw [revise_other cw d x y v hv]

theorem revise_length_lt (cw : Crossword) (d : Domains) (x y : Variable)
    (h : (revise cw d x y).2 = true) :
    ((revise cw d x y).1 x).length < (d x).length := by
  cases hov : cw.overlaps x y with
  | none => rw [revise_none cw d x y hov] at h; exact absurd h (by simp)
  | some p =>
    obtain ⟨i, j⟩ := p
    rw [revise_some cw d x y i j hov] at h
    rw [revise_fst_x cw d x y i j hov]
    simpa using h

theorem revise_flag (cw : Crossword) (d : Domains) (x y : Variable) :
    (revise cw d x y).2 = true ↔ ∃ w ∈ d x, w ∉ (revise cw d x y).1 x := by
  cases hov : cw.overlaps x y with
  | none =>
    rw [revise_none cw d x y hov]
    simp
  | some p =>
    obtain ⟨i, j⟩ := p
    rw [revise_fst_x cw d x y i j hov, revise_some cw d x y i j hov]
    simp only [decide_eq_true_eq]
    constructor
    · intro hlt
      by_contra hc
      push_neg at hc
      have hall : ∀ w ∈ d x, ((d y).any (fun wy => w.getD i ' ' == wy.getD j ' ')) = true :=
        fun w hw => (List.mem_filter.mp (hc w hw)).2
      rw [List.filter_eq_self.mpr hall] at hlt
      omega
    · rintro ⟨w, hw, hnot⟩
      have hsubl : ((d x).filter
          (fun wx => (d y).any (fun wy => wx.getD i ' ' == wy.getD j ' '))).Sublist (d x) :=
        List.filter_sublist _
      have hne : (d x).filter (fun wx => (d y).any (fun wy => wx.getD i ' ' == wy.getD j ' '))
          ≠ d x := fun he => hnot (by rw [he]; exact hw)
      have hle := hsubl.length_le
      rcases Nat.lt_or_ge ((d x).filter
          (fun wx => (d y).any (fun wy => wx.getD i ' ' == wy.getD j ' '))).length
          (d x).length with hlt | hge
      · exact hlt
      · exact absurd (hsubl.eq_of_length (Nat.le_antisymm hle hge)) hne


/-! ## Unfolding equations for the worklist loop -/

theorem ac3Loop_succ_nil (cw : Crossword) (fuel : Nat) (d : Domains) :
    ac3Loop cw (fuel + 1) d [] = some (d, true) := rfl

theorem ac3Loop_cons_true (cw : Crossword) (fuel : Nat) (d d1 : Domains)
    (x y : Variable) (rest : List Arc) (hr : revise cw d x y = (d1, true)) :
    ac3Loop cw (fuel + 1) d ((x, y) :: rest) =
      if (d1 x).length = 0 then some (d1, false)
      else ac3Loop cw fuel d1
        ((((cw.neighbors x).filter (fun z => z != y)).map (fun z => (z, x))).reverse ++ rest) := by
  rw [ac3Loop, hr]

theorem ac3Loop_cons_false (cw : Crossword) (fuel : Nat) (d d1 : Domains)
    (x y : Variable) (rest : List Arc) (hr : revise cw d x y = (d1, false)) :
    ac3Loop cw (fuel + 1) d ((x, y) :: rest) = ac3Loop cw fuel d rest := by
  rw [ac3Loop, hr]

/-! ## Termination and monotonicity of the worklist loop -/

theorem totalSize_mono (d1 d : Domains) (l : List Variable)
    (h : ∀ v, (d1 v).length ≤ (d v).length) : totalSize d1 l ≤ totalSize d l := by
  induction l with
  | nil => simp [totalSize]
  | cons a t ih =>
    simp only [totalSize, List.map_cons, List.sum_cons] at *
    exact Nat.add_le_add (h a) ih

theorem totalSize_lt (d1 d : Domains) (l : List Variable) (x : Variable)
    (hx : x ∈ l) (hlt : (d1 x).length < (d x).length)
    (h : ∀ v, (d1 v).length ≤ (d v).length) :
    totalSize d1 l + 1 ≤ totalSize d l := by
  induction l with
  | nil => exact absurd hx (List.not_mem_nil x)
  | cons a t ih =>
    simp only [totalSize, List.map_cons, List.sum_cons] at *
    rcases List.mem_cons.mp hx with rfl | hx'
    · have := totalSize_mono d1 d t h
      simp only [totalSize] at this
      omega
    · have := ih hx'
      have := h a
      omega

theorem ac3Loop_subset (cw : Crossword) :
    ∀ (fuel : Nat) (d : Domains) (W : List Arc) (r : Domains × Bool),
      ac3Loop cw fuel d W = some r → ∀ v, r.1 v ⊆ d v := by
  intro fuel
  induction fuel with
  | zero => intro d W r h; exact absurd h (by simp [ac3Loop])
  | succ fuel ih =>
    intro d W r h v
    match W with
    | [] =>
      simp only [ac3Loop, Option.some.injEq] at h
      rw [← h]
      exact fun w hw => hw
    | (x, y) :: rest =>
      rcases hr : revise cw d x y with ⟨d1, flag⟩
      cases flag with
      | true =>
        rw [ac3Loop_cons_true cw fuel d d1 x y rest hr] at h
        by_cases hz : (d1 x).length = 0
        · rw [if_pos hz] at h
          simp only [Option.some.injEq] at h
          rw [← h]
          intro w hw
          have hd1 : d1 = (revise cw d x y).1 := by rw [hr]
          rw [hd1] at hw
          exact revise_subset cw d x y v hw
        · rw [if_neg hz] at h
          intro w hw
          have h1 := ih d1 _ r h v hw
          have hd1 : d1 = (revise cw d x y).1 := by rw [hr]
          rw [hd1] at h1
          exact revise_subset cw d x y v h1
      | false =>
        rw [ac3Loop_cons_false cw fuel d d1 x y rest hr] at h
        exact ih d rest r h v

theorem ac3Loop_isSome (cw : Crossword) :
    ∀ (fuel : Nat) (S : List Variable) (d : Domains) (W : List Arc),
      (∀ p ∈ W, p.1 ∈ S) → (∀ v ∈ cw.variables, v ∈ S) →
      W.length + totalSize d S * (cw.variables.length + 1) + 1 ≤ fuel →
      (ac3Loop cw fuel d W).isSome := by
  intro fuel
  induction fuel with
  | zero => intro S d W _ _ hle; omega
  | succ fuel ih =>
    intro S d W hW hV hle
    match W with
    | [] => simp [ac3Loop]
    | (x, y) :: rest =>
      rcases hr : revise cw d x y with ⟨d1, flag⟩
      cases flag with
      | false =>
        rw [ac3Loop_cons_false cw fuel d d1 x y rest hr]
        apply ih S d rest (fun p hp => hW p (List.mem_cons_of_mem _ hp)) hV
        simp only [List.length_cons] at hle
        omega
      | true =>
        rw [ac3Loop_cons_true cw fuel d d1 x y rest hr]
        by_cases hz : (d1 x).length = 0
        · simp [hz]
        · rw [if_neg hz]
          set pushed := (((cw.neighbors x).filter (fun z => z != y)).map
            (fun z => (z, x))).reverse with hpushed
          have hd1 : d1 = (revise cw d x y).1 := by rw [hr]
          have hflag : (revise cw d x y).2 = true := by rw [hr]
          have hmono : ∀ v, (d1 v).length ≤ (d v).length := by
            intro v; rw [hd1]; exact revise_length_le cw d x y v
          have hxS : x ∈ S := hW (x, y) (List.mem_cons_self _ _)
          have hxlt : (d1 x).length < (d x).length := by
            rw [hd1]; exact revise_length_lt cw d x y hflag
          have hT := totalSize_lt d1 d S x hxS hxlt hmono
          have hPlen : pushed.length ≤ cw.variables.length := by
            rw [hpushed]
            simp only [List.length_reverse, List.length_map]
            calc ((cw.neighbors x).filter (fun z => z != y)).length
                ≤ (cw.neighbors x).length := (List.filter_sublist _).length_le
              _ ≤ cw.variables.length := (List.filter_sublist _).length_le
          apply ih S d1 (pushed ++ rest)
          · intro p hp
            rcases List.mem_append.mp hp with hp1 | hp2
            · rw [hpushed] at hp1
              rw [List.mem_reverse] at hp1
              rcases List.mem_map.mp hp1 with ⟨z, hz1, rfl⟩
              have hz2 : z ∈ cw.neighbors x := List.mem_of_mem_filter hz1
              have hz3 : z ∈ cw.variables := List.mem_of_mem_filter hz2
              exact hV z hz3
            · exact hW p (List.mem_cons_of_mem _ hp2)
          · exact hV
          · simp only [List.length_append, List.length_cons] at *
            have hmul : (totalSize d1 S + 1) * (cw.variables.length + 1) ≤
                totalSize d S * (cw.variables.length + 1) :=
              Nat.mul_le_mul_right _ hT
            have hexp : (totalSize d1 S + 1) * (cw.variables.length + 1) =
                totalSize d1 S * (cw.variables.length + 1) + (cw.variables.length + 1) := by
              ring
            omega


/-! ## The `ac3` wrapper -/

theorem ac3_loop_eq (cw : Crossword) (d : Domains) (arcs : Option (List Arc)) :
    ac3Loop cw (ac3Bound cw d (initialWorklist cw arcs)) d (initialWorklist cw arcs) =
      some (ac3 cw d arcs) := by
  have h := ac3Loop_isSome cw (ac3Bound cw d (initialWorklist cw arcs))
    ((initialWorklist cw arcs).map Prod.fst ++ cw.variables) d (initialWorklist cw arcs)
    (fun p hp => List.mem_append_left _ (List.mem_map_of_mem Prod.fst hp))
    (fun v hv => List.mem_append_right _ hv)
    (by unfold ac3Bound; omega)
  rcases Option.isSome_iff_exists.mp h with ⟨r, hr⟩
  unfold ac3
  rw [hr]
  rfl

theorem ac3_subset (cw : Crossword) (d : Domains) (arcs : Option (List Arc)) (v : Variable) :
    (ac3 cw d arcs).1 v ⊆ d v :=
  ac3Loop_subset cw _ d _ _ (ac3_loop_eq cw d arcs) v

/-! ## Arc consistency: the loop invariant -/

/-- `x`'s domain is arc-consistent with respect to `y`: when the slots
overlap, every word of `x`'s domain has a supporting word in `y`'s. -/
def supportedAt (cw : Crossword) (d : Domains) (x y : Variable) : Prop :=
  ∀ i j, cw.overlaps x y = some (i, j) →
    ∀ w ∈ d x, ∃ v ∈ d y, w.getD i ' ' = v.getD j ' '

/-- The overlap relation is symmetric with swapped indices
(spec §3 "Overlap Relation"). -/
def OverlapSymm (cw : Crossword) : Prop :=
  ∀ x y i j, cw.overlaps x y = some (i, j) → cw.overlaps y x = some (j, i)

theorem mem_neighbors (cw : Crossword) (x v : Variable) :
    v ∈ cw.neighbors x ↔ v ∈ cw.variables ∧ v ≠ x ∧ (cw.overlaps x v).isSome := by
  unfold Crossword.neighbors
  rw [List.mem_filter]
  simp [bne_iff_ne, and_assoc]

theorem neighbors_symm (cw : Crossword) (hsym : OverlapSymm cw) (a x : Variable)
    (ha : a ∈ cw.variables) (hx : x ∈ cw.neighbors a) : a ∈ cw.neighbors x := by
  rcases (mem_neighbors cw a x).mp hx with ⟨_, hne, hov⟩
  rcases Option.isSome_iff_exists.mp hov with ⟨⟨i, j⟩, hij⟩
  exact (mem_neighbors cw x a).mpr ⟨ha, fun h => hne h.symm,
    Option.isSome_iff_exists.mpr ⟨(j, i), hsym a x i j hij⟩⟩

theorem supportedAt_of_revised (cw : Crossword) (d : Domains) (x y : Variable)
    (hxy : y ≠ x) : supportedAt cw (revise cw d x y).1 x y := by
  intro i j hov w hw
  rcases ((revise_mem cw d x y i j hov w).mp hw) with ⟨_, v, hv, hagree⟩
  refine ⟨v, ?_, hagree⟩
  rw [revise_other cw d x y y hxy]
  exact hv

theorem supportedAt_rev_preserved (cw : Crossword) (hsym : OverlapSymm cw) (d : Domains)
    (x y : Variable) (i j : Nat) (hov : cw.overlaps x y = some (i, j)) (hxy : y ≠ x)
    (hsup : supportedAt cw d y x) : supportedAt cw (revise cw d x y).1 y x := by
  intro j1 i1 hov1 v hv
  have hovyx : cw.overlaps y x = some (j, i) := hsym x y i j hov
  rw [hovyx] at hov1
  injection hov1 with hpair
  injection hpair with hj1 hi1
  subst hj1; subst hi1
  rw [revise_other cw d x y y hxy] at hv
  rcases hsup j i hovyx v hv with ⟨w, hw, hagree⟩
  refine ⟨w, ?_, hagree⟩
  rw [revise_mem cw d x y i j hov]
  exact ⟨hw, v, hv, hagree.symm⟩

theorem supportedAt_mono (cw : Crossword) (d1 d : Domains) (a b : Variable)
    (h1 : ∀ w, w ∈ d1 a → w ∈ d a) (h2 : d1 b = d b)
    (hsup : supportedAt cw d a b) : supportedAt cw d1 a b := by
  intro i j hov w hw
  rcases hsup i j hov w (h1 w hw) with ⟨v, hv, hagree⟩
  exact ⟨v, h2 ▸ hv, hagree⟩

theorem supportedAt_of_not_revised (cw : Crossword) (d d1 : Domains) (x y : Variable)
    (hr : revise cw d x y = (d1, false)) : supportedAt cw d x y := by
  intro i j hov w hw
  have hflag : (revise cw d x y).2 = false := by rw [hr]
  by_contra hc
  push_neg at hc
  have hnot : w ∉ (revise cw d x y).1 x := by
    rw [revise_mem cw d x y i j hov]
    rintro ⟨_, v, hv, hagree⟩
    exact hc v hv hagree
  have := (revise_flag cw d x y).mpr ⟨w, hw, hnot⟩
  rw [hflag] at this
  exact absurd this (by simp)

theorem revise_overlap_of_flag (cw : Crossword) (d : Domains) (x y : Variable)
    (h : (revise cw d x y).2 = true) : ∃ i j, cw.overlaps x y = some (i, j) := by
  cases hov : cw.overlaps x y with
  | none =>
    rw [revise_none cw d x y hov] at h
    exact absurd h (by simp)
  | some p =>
    obtain ⟨i, j⟩ := p
    exact ⟨i, j, rfl⟩

theorem ac3Loop_arc_consistent (cw : Crossword) (hsym : OverlapSymm cw) :
    ∀ (fuel : Nat) (d : Domains) (W : List Arc) (d1 : Domains),
      (∀ p ∈ W, p.1 ≠ p.2) →
      (∀ a ∈ cw.variables, ∀ b ∈ cw.neighbors a, (a, b) ∈ W ∨ supportedAt cw d a b) →
      ac3Loop cw fuel d W = some (d1, true) →
      ∀ a ∈ cw.variables, ∀ b ∈ cw.neighbors a, supportedAt cw d1 a b := by
  intro fuel
  induction fuel with
  | zero => intro d W d1 _ _ h; exact absurd h (by simp [ac3Loop])
  | succ fuel ih =>
    intro d W d1 hne hinv h a ha b hb
    match W with
    | [] =>
      rw [ac3Loop_succ_nil] at h
      simp only [Option.some.injEq, Prod.mk.injEq] at h
      rcases hinv a ha b hb with hmem | hsup
      · exact absurd hmem (List.not_mem_nil _)
      · rw [← h.1]
        exact hsup
    | (x, y) :: rest =>
      rcases hr : revise cw d x y with ⟨dr, flag⟩
      have hxy : x ≠ y := hne (x, y) (List.mem_cons_self _ _)
      cases flag with
      | false =>
        rw [ac3Loop_cons_false cw fuel d dr x y rest hr] at h
        refine ih d rest d1 (fun p hp => hne p (List.mem_cons_of_mem _ hp)) ?_ h a ha b hb
        intro a1 ha1 b1 hb1
        rcases hinv a1 ha1 b1 hb1 with hmem | hsup
        · rcases List.mem_cons.mp hmem with heq | hmem'
          · right
            have hax : a1 = x := congrArg Prod.fst heq
            have hby : b1 = y := congrArg Prod.snd heq
            rw [hax, hby]
            exact supportedAt_of_not_revised cw d dr x y hr
          · exact Or.inl hmem'
        · exact Or.inr hsup
      | true =>
        rw [ac3Loop_cons_true cw fuel d dr x y rest hr] at h
        by_cases hz : (dr x).length = 0
        · rw [if_pos hz] at h
          simp at h
        · rw [if_neg hz] at h
          have hdr : dr = (revise cw d x y).1 := by rw [hr]
          have hflag : (revise cw d x y).2 = true := by rw [hr]
          rcases revise_overlap_of_flag cw d x y hflag with ⟨i, j, hov⟩
          refine ih dr _ d1 ?_ ?_ h a ha b hb
          · -- pushed pairs (z, x) have z ≠ x; the rest inherited
            intro p hp
            rcases List.mem_append.mp hp with hp1 | hp2
            · rw [List.mem_reverse] at hp1
              rcases List.mem_map.mp hp1 with ⟨z, hz1, rfl⟩
              have hzn : z ∈ cw.neighbors x := List.mem_of_mem_filter hz1
              exact ((mem_neighbors cw x z).mp hzn).2.1
            · exact hne p (List.mem_cons_of_mem _ hp2)
          · -- invariant preservation
            intro a1 ha1 b1 hb1
            by_cases hb1x : b1 = x
            · by_cases ha1y : a1 = y
              · -- the pair (y, x): support is preserved by the classic AC-3 argument
                rcases hinv a1 ha1 b1 hb1 with hmem | hsup
                · rcases List.mem_cons.mp hmem with heq | hmem'
                  · exfalso
                    have hax : a1 = x := congrArg Prod.fst heq
                    exact hxy (by rw [← hax]; exact ha1y)
                  · exact Or.inl (List.mem_append_right _ hmem')
                · right
                  rw [ha1y, hb1x, hdr]
                  exact supportedAt_rev_preserved cw hsym d x y i j hov
                    (fun hh => hxy hh.symm) (ha1y ▸ hb1x ▸ hsup)
              · -- (a1, x) with a1 ≠ y: the loop pushed this very arc
                left
                apply List.mem_append_left
                rw [List.mem_reverse]
                have hxn : x ∈ cw.neighbors a1 := hb1x ▸ hb1
                have han : a1 ∈ cw.neighbors x := neighbors_symm cw hsym a1 x ha1 hxn
                have : a1 ∈ (cw.neighbors x).filter (fun z => z != y) :=
                  List.mem_filter.mpr ⟨han, by simp [ha1y]⟩
                rw [hb1x]
                exact List.mem_map_of_mem (fun z => (z, x)) this
            · -- b1 ≠ x: b1's domain is untouched, a1's can only shrink
              rcases hinv a1 ha1 b1 hb1 with hmem | hsup
              · rcases List.mem_cons.mp hmem with heq | hmem'
                · right
                  have hax : a1 = x := congrArg Prod.fst heq
                  have hby : b1 = y := congrArg Prod.snd heq
                  rw [hax, hby, hdr]
                  exact supportedAt_of_revised cw d x y (fun hh => hxy hh.symm)
                · exact Or.inl (List.mem_append_right _ hmem')
              · right
                rw [hdr]
                exact supportedAt_mono cw _ d a1 b1
                  (fun w hw => revise_subset cw d x y a1 hw)
                  (revise_other cw d x y b1 hb1x) hsup


theorem mem_allArcs (cw : Crossword) (a b : Variable) (ha : a ∈ cw.variables)
    (hb : b ∈ cw.neighbors a) : (a, b) ∈ allArcs cw := by
  unfold allArcs
  rw [List.mem_flatMap]
  exact ⟨a, ha, List.mem_map_of_mem _ hb⟩

theorem allArcs_ne (cw : Crossword) (p : Arc) (hp : p ∈ allArcs cw) : p.1 ≠ p.2 := by
  unfold allArcs at hp
  rw [List.mem_flatMap] at hp
  rcases hp with ⟨v, _, hp2⟩
  rcases List.mem_map.mp hp2 with ⟨n, hn, rfl⟩
  exact fun h => ((mem_neighbors cw v n).mp hn).2.1 h.symm

theorem ac3_arc_consistent (cw : Crossword) (hsym : OverlapSymm cw) (d : Domains)
    (h : (ac3 cw d none).2 = true) :
    ∀ x ∈ cw.variables, ∀ y ∈ cw.neighbors x, ∀ i j, cw.overlaps x y = some (i, j) →
      ∀ w ∈ (ac3 cw d none).1 x, ∃ v ∈ (ac3 cw d none).1 y,
        w.getD i ' ' = v.getD j ' ' := by
  have hloop := ac3_loop_eq cw d none
  have hW : initialWorklist cw none = (allArcs cw).reverse := rfl
  have hac := ac3Loop_arc_consistent cw hsym (ac3Bound cw d (initialWorklist cw none)) d
    (initialWorklist cw none) (ac3 cw d none).1
    (by
      intro p hp
      rw [hW, List.mem_reverse] at hp
      exact allArcs_ne cw p hp)
    (by
      intro a ha b hb
      left
      rw [hW, List.mem_reverse]
      exact mem_allArcs cw a b ha hb)
    (by
      rw [hloop]
      have : ac3 cw d none = ((ac3 cw d none).1, (ac3 cw d none).2) := rfl
      rw [← h])
  intro x hx y hy i j hov w hw
  exact hac x hx y hy i j hov w hw


/-! ## Sorting lemmas for `order_domain_values` -/

theorem insertByKey_perm (k : Word → Nat) (w : Word) (l : List Word) :
    (insertByKey k w l).Perm (w :: l) := by
  induction l with
  | nil => exact List.Perm.refl _
  | cons v rest ih =>
    unfold insertByKey
    by_cases h : k v < k w
    · rw [if_pos h]
      exact (List.Perm.cons v ih).trans (List.Perm.swap w v rest)
    · rw [if_neg h]

theorem sortByKey_perm (k : Word → Nat) (l : List Word) : (sortByKey k l).Perm l := by
  induction l with
  | nil => exact List.Perm.refl _
  | cons w rest ih =>
    unfold sortByKey
    exact (insertByKey_perm k w (sortByKey k rest)).trans (List.Perm.cons w ih)

theorem insertByKey_pairwise (k : Word → Nat) (w : Word) (l : List Word)
    (h : l.Pairwise (fun w1 w2 => k w1 ≤ k w2)) :
    (insertByKey k w l).Pairwise (fun w1 w2 => k w1 ≤ k w2) := by
  induction l with
  | nil => simp [insertByKey]
  | cons v rest ih =>
    rcases List.pairwise_cons.mp h with ⟨hv, hrest⟩
    unfold insertByKey
    by_cases hlt : k v < k w
    · rw [if_pos hlt]
      refine List.pairwise_cons.mpr ⟨?_, ih hrest⟩
      intro u hu
      have := (insertByKey_perm k w rest).mem_iff.mp hu
      rcases List.mem_cons.mp this with rfl | hu'
      · exact Nat.le_of_lt hlt
      · exact hv u hu'
    · rw [if_neg hlt]
      refine List.pairwise_cons.mpr ⟨?_, h⟩
      intro u hu
      rcases List.mem_cons.mp hu with rfl | hu'
      · exact Nat.le_of_not_lt hlt
      · exact Nat.le_trans (Nat.le_of_not_lt hlt) (hv u hu')

theorem sortByKey_pairwise (k : Word → Nat) (l : List Word) :
    (sortByKey k l).Pairwise (fun w1 w2 => k w1 ≤ k w2) := by
  induction l with
  | nil => simp [sortByKey]
  | cons w rest ih => exact insertByKey_pairwise k w (sortByKey k rest) ih

theorem order_domain_values_perm (cw : Crossword) (d : Domains) (var : Variable)
    (a : Assignment) : (order_domain_values cw d var a).Perm (d var) :=
  sortByKey_perm _ (d var)

/-! ## The MRV/degree selection -/

theorem keyLt_irrefl (cw : Crossword) (d : Domains) (x : Variable) : ¬ keyLt cw d x x := by
  unfold keyLt; omega

theorem keyLt_trans (cw : Crossword) (d : Domains) (x y z : Variable)
    (h1 : keyLt cw d x y) (h2 : keyLt cw d y z) : keyLt cw d x z := by
  unfold keyLt at *; omega

theorem keyLt_of_lt_of_not_lt (cw : Crossword) (d : Domains) (m v x : Variable)
    (h1 : keyLt cw d m v) (h2 : ¬ keyLt cw d x v) : keyLt cw d m x := by
  unfold keyLt at *; omega

theorem keyLt_asymm (cw : Crossword) (d : Domains) (x y : Variable)
    (h : keyLt cw d x y) : ¬ keyLt cw d y x := by
  unfold keyLt at *; omega

/-- Python's `min` over a non-empty list: the fold keeps the first element
attaining the minimal key.  The result splits the list into the strictly
worse elements before it and the not-strictly-better ones after it. -/
theorem foldl_min_split (cw : Crossword) (d : Domains) :
    ∀ (rest : List Variable) (v : Variable),
      ∃ l1 l2, v :: rest = l1 ++
        (rest.foldl (fun best u => if keyLt cw d u best then u else best) v) :: l2 ∧
        (∀ u ∈ l1, keyLt cw d
          (rest.foldl (fun best u => if keyLt cw d u best then u else best) v) u) ∧
        (∀ u ∈ l2, ¬ keyLt cw d u
          (rest.foldl (fun best u => if keyLt cw d u best then u else best) v)) := by
  intro rest
  induction rest with
  | nil =>
    intro v
    exact ⟨[], [], rfl, by simp, by simp⟩
  | cons x rest ih =>
    intro v
    simp only [List.foldl_cons]
    by_cases hx : keyLt cw d x v
    · rw [if_pos hx]
      rcases ih x with ⟨l1, l2, hsplit, h1, h2⟩
      set m := rest.foldl (fun best u => if keyLt cw d u best then u else best) x with hm
      have hmv : keyLt cw d m v := by
        cases l1 with
        | nil =>
          have : x = m := ((List.cons.injEq _ _ _ _).mp (by simpa using hsplit)).1
          rw [← this]
          exact hx
        | cons a t =>
          have hax : a = x := (((List.cons.injEq _ _ _ _).mp (by simpa using hsplit)).1).symm
          have : keyLt cw d m x := hax ▸ h1 a (List.mem_cons_self a t)
          exact keyLt_trans cw d m x v this hx
      refine ⟨v :: l1, l2, by rw [List.cons_append, hsplit], ?_, h2⟩
      intro u hu
      rcases List.mem_cons.mp hu with rfl | hu'
      · exact hmv
      · exact h1 u hu'
    · rw [if_neg hx]
      rcases ih v with ⟨l1, l2, hsplit, h1, h2⟩
      set m := rest.foldl (fun best u => if keyLt cw d u best then u else best) v with hm
      cases l1 with
      | nil =>
        have hmv : v = m := ((List.cons.injEq _ _ _ _).mp (by simpa using hsplit)).1
        have hl2 : rest = l2 := ((List.cons.injEq _ _ _ _).mp (by simpa using hsplit)).2
        refine ⟨[], x :: l2, by rw [List.nil_append, ← hmv, hl2], by simp, ?_⟩
        intro u hu
        rcases List.mem_cons.mp hu with rfl | hu'
        · rw [← hmv]; exact hx
        · exact h2 u hu'
      | cons v0 l1t =>
        have hv0 : v0 = v := (((List.cons.injEq _ _ _ _).mp (by simpa using hsplit)).1).symm
        have htail : rest = l1t ++ m :: l2 :=
          ((List.cons.injEq _ _ _ _).mp (by simpa using hsplit)).2
        have hmv : keyLt cw d m v := hv0 ▸ h1 v0 (List.mem_cons_self v0 l1t)
        refine ⟨v :: x :: l1t, l2,
          by rw [List.cons_append, List.cons_append, htail], ?_, h2⟩
        intro u hu
        rcases List.mem_cons.mp hu with rfl | hu'
        · exact hmv
        · rcases List.mem_cons.mp hu' with rfl | hu''
          · exact keyLt_of_lt_of_not_lt cw d m v u hmv hx
          · exact h1 u (List.mem_cons_of_mem v0 hu'')


theorem select_split (cw : Crossword) (d : Domains) (a : Assignment) (m : Variable)
    (h : select_unassigned_variable cw d a = some m) :
    ∃ l1 l2, cw.variables.filter (fun v => !(assignedb a v)) = l1 ++ m :: l2 ∧
      (∀ u ∈ l1, keyLt cw d m u) ∧ (∀ u ∈ l2, ¬ keyLt cw d u m) := by
  unfold select_unassigned_variable at h
  cases hf : cw.variables.filter (fun v => !(assignedb a v)) with
  | nil => rw [hf] at h; exact absurd h (by simp)
  | cons v rest =>
    rw [hf] at h
    simp only [Option.some.injEq] at h
    rcases foldl_min_split cw d rest v with ⟨l1, l2, hsplit, h1, h2⟩
    rw [h] at hsplit h1 h2
    exact ⟨l1, l2, hsplit, h1, h2⟩

theorem select_isSome (cw : Crossword) (d : Domains) (a : Assignment)
    (h : ∃ v ∈ cw.variables, assignedb a v = false) :
    ∃ m, select_unassigned_variable cw d a = some m := by
  rcases h with ⟨v, hv, hva⟩
  have : v ∈ cw.variables.filter (fun u => !(assignedb a u)) :=
    List.mem_filter.mpr ⟨hv, by rw [hva]; rfl⟩
  unfold select_unassigned_variable
  cases hf : cw.variables.filter (fun u => !(assignedb a u)) with
  | nil => rw [hf] at this; exact absurd this (List.not_mem_nil v)
  | cons w rest => exact ⟨_, rfl⟩

theorem select_mem (cw : Crossword) (d : Domains) (a : Assignment) (m : Variable)
    (h : select_unassigned_variable cw d a = some m) :
    m ∈ cw.variables ∧ assignedb a m = false := by
  rcases select_split cw d a m h with ⟨l1, l2, hsplit, _, _⟩
  have : m ∈ cw.variables.filter (fun v => !(assignedb a v)) := by
    rw [hsplit]
    exact List.mem_append_right _ (List.mem_cons_self m l2)
  have hmf := List.mem_filter.mp this
  exact ⟨hmf.1, by simpa using hmf.2⟩

theorem select_min (cw : Crossword) (d : Domains) (a : Assignment) (m : Variable)
    (h : select_unassigned_variable cw d a = some m) :
    ∀ x ∈ cw.variables, assignedb a x = false → ¬ keyLt cw d x m := by
  intro x hx hxa
  rcases select_split cw d a m h with ⟨l1, l2, hsplit, h1, h2⟩
  have : x ∈ cw.variables.filter (fun v => !(assignedb a v)) :=
    List.mem_filter.mpr ⟨hx, by rw [hxa]; rfl⟩
  rw [hsplit] at this
  rcases List.mem_append.mp this with hx1 | hx2
  · exact keyLt_asymm cw d m x (h1 x hx1)
  · rcases List.mem_cons.mp hx2 with rfl | hx3
    · exact keyLt_irrefl cw d x
    · exact h2 x hx3

/-! ## Dictionary lemmas for the assignment -/

theorem dictSet_of_not_assigned (a : Assignment) (k : Variable) (w : Word)
    (h : assignedb a k = false) : dictSet a k w = a ++ [(k, w)] := by
  unfold dictSet
  unfold assignedb at h
  rw [h]
  rfl

theorem dictDel_of_not_assigned (a : Assignment) (k : Variable)
    (h : assignedb a k = false) : dictDel a k = a := by
  unfold dictDel
  apply List.filter_eq_self.mpr
  intro p hp
  have hne : p.1 ≠ k := by
    intro he
    have ht : assignedb a k = true := List.any_eq_true.mpr ⟨p, hp, by simp [he]⟩
    rw [h] at ht
    exact Bool.noConfusion ht
  simp [bne_iff_ne, hne]

theorem dictDel_append_single (a : Assignment) (k : Variable) (w : Word)
    (h : assignedb a k = false) : dictDel (a ++ [(k, w)]) k = a := by
  unfold dictDel
  rw [List.filter_append]
  have h1 : (a.filter (fun p => p.1 != k)) = a := dictDel_of_not_assigned a k h
  have h2 : ([((k : Variable), w)].filter (fun p => p.1 != k)) = [] := by simp
  rw [h1, h2, List.append_nil]

theorem assignedb_dictSet_self (a : Assignment) (k : Variable) (w : Word)
    (h : assignedb a k = false) : assignedb (dictSet a k w) k = true := by
  rw [dictSet_of_not_assigned a k w h]
  unfold assignedb
  simp

theorem assignedb_dictSet_mono (a : Assignment) (k u : Variable) (w : Word)
    (h : assignedb a u = true) : assignedb (dictSet a k w) u = true := by
  unfold dictSet assignedb at *
  by_cases hk : a.any (fun p => p.1 == k)
  · rw [if_pos hk]
    rcases List.any_eq_true.mp h with ⟨p, hp, hpu⟩
    apply List.any_eq_true.mpr
    by_cases hpk : p.1 == k
    · exact ⟨(k, w), List.mem_map.mpr ⟨p, hp, by rw [if_pos hpk]⟩, by
        simp only [beq_iff_eq] at hpu hpk ⊢
        rw [← hpk, hpu]⟩
    · exact ⟨p, List.mem_map.mpr ⟨p, hp, by rw [if_neg hpk]⟩, hpu⟩
  · rw [if_neg hk]
    rcases List.any_eq_true.mp h with ⟨p, hp, hpu⟩
    exact List.any_eq_true.mpr ⟨p, List.mem_append_left _ hp, hpu⟩

theorem countP_unassigned_le (a : Assignment) (var : Variable) (w : Word)
    (l : List Variable) :
    l.countP (fun v => !(assignedb (dictSet a var w) v)) ≤
      l.countP (fun v => !(assignedb a v)) := by
  apply List.countP_mono_left
  intro v _ hv
  simp only [Bool.not_eq_true'] at hv ⊢
  by_cases hav : assignedb a v = true
  · rw [assignedb_dictSet_mono a var v w hav] at hv
    exact Bool.noConfusion hv
  · exact Bool.not_eq_true _ ▸ Bool.of_not_eq_true hav

theorem countP_unassigned_lt (a : Assignment) (var : Variable) (w : Word)
    (l : List Variable) (hmem : var ∈ l) (hun : assignedb a var = false) :
    l.countP (fun v => !(assignedb (dictSet a var w) v)) + 1 ≤
      l.countP (fun v => !(assignedb a v)) := by
  induction l with
  | nil => exact absurd hmem (List.not_mem_nil var)
  | cons x rest ih =>
    simp only [List.countP_cons]
    have hmono := countP_unassigned_le a var w rest
    rcases List.mem_cons.mp hmem with rfl | hx
    · rw [assignedb_dictSet_self a var w hun, hun]
      simp only [Bool.not_true, Bool.not_false]
      norm_num
      omega
    · have hihle := ih hx
      by_cases hax : assignedb a x = true
      · rw [hax, assignedb_dictSet_mono a var x w hax]
        simp only [Bool.not_true]
        norm_num
        omega
      · have hax' : assignedb a x = false := Bool.not_eq_true _ ▸ Bool.of_not_eq_true hax
        rw [hax']
        simp only [Bool.not_false]
        by_cases hnx : assignedb (dictSet a var w) x = true
        · rw [hnx]; simp only [Bool.not_true]; norm_num; omega
        · have hnx' : assignedb (dictSet a var w) x = false :=
            Bool.not_eq_true _ ▸ Bool.of_not_eq_true hnx
          rw [hnx']; simp only [Bool.not_false]; norm_num; omega


/-! ## The backtracking search: state restoration, soundness, fuel -/

theorem tryValuesWith_nil (bt : Assignment → Option (Assignment × Bool)) (cw : Crossword)
    (var : Variable) (a : Assignment) : tryValuesWith bt cw var [] a = some (a, false) := rfl

theorem tryValuesWith_cons (bt : Assignment → Option (Assignment × Bool)) (cw : Crossword)
    (var : Variable) (w : Word) (rest : List Word) (a : Assignment) :
    tryValuesWith bt cw var (w :: rest) a =
      if consistent cw (dictSet a var w) then
        match bt (dictSet a var w) with
        | none => none
        | some (a2, ok) =>
          if ok && !a2.isEmpty then some (a2, true)
          else tryValuesWith bt cw var rest (dictDel a2 var)
      else tryValuesWith bt cw var rest (dictDel (dictSet a var w) var) := by
  rw [tryValuesWith]

theorem backtrackFuel_succ (cw : Crossword) (d : Domains) (fuel : Nat) (a : Assignment) :
    backtrackFuel cw d (fuel + 1) a =
      if assignment_complete cw a then some (a, true)
      else
        match select_unassigned_variable cw d a with
        | none => some (a, false)
        | some var => tryValuesWith (backtrackFuel cw d fuel) cw var
            (order_domain_values cw d var a) a := by
  rw [backtrackFuel]

/-- The two facts threaded through the search recursion: a failed call
restores the dict it was handed, and a successful call only appends
entries, each drawn from the current domain store. -/
def BtState (d : Domains) (bt : Assignment → Option (Assignment × Bool)) : Prop :=
  ∀ a a2 ok, bt a = some (a2, ok) →
    (ok = false → a2 = a) ∧ (ok = true → ∃ ext, a2 = a ++ ext ∧ ∀ p ∈ ext, p.2 ∈ d p.1)

theorem dictDel_dictSet (a : Assignment) (k : Variable) (w : Word)
    (h : assignedb a k = false) : dictDel (dictSet a k w) k = a := by
  rw [dictSet_of_not_assigned a k w h]
  exact dictDel_append_single a k w h

theorem tryValues_state (bt : Assignment → Option (Assignment × Bool)) (cw : Crossword)
    (d : Domains) (var : Variable) (hbt : BtState d bt) :
    ∀ (values : List Word), (∀ w ∈ values, w ∈ d var) →
      ∀ (b a2 : Assignment) (ok : Bool), assignedb b var = false →
      tryValuesWith bt cw var values b = some (a2, ok) →
      (ok = false → a2 = b) ∧ (ok = true → ∃ ext, a2 = b ++ ext ∧ ∀ p ∈ ext, p.2 ∈ d p.1) := by
  intro values
  induction values with
  | nil =>
    intro _ b a2 ok hb h
    rw [tryValuesWith_nil] at h
    simp only [Option.some.injEq, Prod.mk.injEq] at h
    constructor
    · intro _; exact h.1.symm
    · intro hok; rw [hok] at h; exact absurd h.2.symm (by simp)
  | cons w rest ih =>
    intro hvals b a2 ok hb h
    have hw : w ∈ d var := hvals w (List.mem_cons_self w rest)
    have hvals' : ∀ u ∈ rest, u ∈ d var := fun u hu => hvals u (List.mem_cons_of_mem w hu)
    rw [tryValuesWith_cons] at h
    have ha1 : dictSet b var w = b ++ [(var, w)] := dictSet_of_not_assigned b var w hb
    cases hcons : consistent cw (dictSet b var w) with
    | false =>
      rw [hcons] at h
      simp only [Bool.false_eq_true, if_false] at h
      rw [dictDel_dictSet b var w hb] at h
      exact ih hvals' b a2 ok hb h
    | true =>
      rw [hcons] at h
      simp only [if_true] at h
      cases hbtr : bt (dictSet b var w) with
      | none => rw [hbtr] at h; exact absurd h (by simp)
      | some r =>
        obtain ⟨c, okc⟩ := r
        rw [hbtr] at h
        dsimp only at h
        rcases hbt (dictSet b var w) c okc hbtr with ⟨hfail, hsucc⟩
        cases okc with
        | true =>
          rcases hsucc rfl with ⟨ext, hc, hext⟩
          have hcne : c ≠ [] := by
            rw [hc, ha1]
            intro hnil
            rcases List.append_eq_nil.mp hnil with ⟨hnil1, _⟩
            rcases List.append_eq_nil.mp hnil1 with ⟨_, h2⟩
            exact List.cons_ne_nil _ _ h2
          have hemp : c.isEmpty = false := by
            cases he : c.isEmpty
            · rfl
            · exact absurd (List.isEmpty_iff.mp he) hcne
          rw [hemp] at h
          simp only [Bool.not_false, Bool.true_and, if_true] at h
          simp only [Option.some.injEq, Prod.mk.injEq] at h
          constructor
          · intro hok; rw [← h.2] at hok; exact Bool.noConfusion hok
          · intro _
            refine ⟨(var, w) :: ext, ?_, ?_⟩
            · rw [← h.1, hc, ha1, List.append_assoc]
              rfl
            · intro p hp
              rcases List.mem_cons.mp hp with rfl | hp'
              · exact hw
              · exact hext p hp'
        | false =>
          have hcb : c = dictSet b var w := hfail rfl
          simp only [Bool.false_and, if_false] at h
          rw [hcb, dictDel_dictSet b var w hb] at h
          exact ih hvals' b a2 ok hb h

theorem backtrackFuel_state (cw : Crossword) (d : Domains) :
    ∀ (fuel : Nat), BtState d (backtrackFuel cw d fuel) := by
  intro fuel
  induction fuel with
  | zero =>
    intro a a2 ok h
    exact absurd h (by simp [backtrackFuel])
  | succ fuel ih =>
    intro a a2 ok h
    rw [backtrackFuel_succ] at h
    cases hcomp : assignment_complete cw a with
    | true =>
      rw [hcomp] at h
      simp only [if_true, Option.some.injEq, Prod.mk.injEq] at h
      constructor
      · intro hok; rw [← h.2] at hok; exact Bool.noConfusion hok
      · intro _; exact ⟨[], by rw [← h.1, List.append_nil], by simp⟩
    | false =>
      rw [hcomp] at h
      simp only [Bool.false_eq_true, if_false] at h
      cases hsel : select_unassigned_variable cw d a with
      | none =>
        rw [hsel] at h
        simp only [Option.some.injEq, Prod.mk.injEq] at h
        constructor
        · intro _; exact h.1.symm
        · intro hok; rw [← h.2] at hok; exact Bool.noConfusion hok
      | some var =>
        rw [hsel] at h
        have hvals : ∀ w ∈ order_domain_values cw d var a, w ∈ d var :=
          fun w hw => (order_domain_values_perm cw d var a).mem_iff.mp hw
        exact tryValues_state (backtrackFuel cw d fuel) cw d var ih
          (order_domain_values cw d var a) hvals a a2 ok
          (select_mem cw d a var hsel).2 h


theorem tryValues_sound (bt : Assignment → Option (Assignment × Bool)) (cw : Crossword)
    (d : Domains) (var : Variable) (hbt : BtState d bt)
    (hsound : ∀ a a2, consistent cw a = true → bt a = some (a2, true) →
      assignment_complete cw a2 = true ∧ consistent cw a2 = true) :
    ∀ (values : List Word) (b a2 : Assignment), assignedb b var = false →
      consistent cw b = true →
      tryValuesWith bt cw var values b = some (a2, true) →
      assignment_complete cw a2 = true ∧ consistent cw a2 = true := by
  intro values
  induction values with
  | nil =>
    intro b a2 hb _ h
    rw [tryValuesWith_nil] at h
    simp only [Option.some.injEq, Prod.mk.injEq] at h
    exact absurd h.2.symm (by simp)
  | cons w rest ih =>
    intro b a2 hb hcb h
    rw [tryValuesWith_cons] at h
    cases hcons : consistent cw (dictSet b var w) with
    | false =>
      rw [hcons] at h
      simp only [Bool.false_eq_true, if_false] at h
      rw [dictDel_dictSet b var w hb] at h
      exact ih b a2 hb hcb h
    | true =>
      rw [hcons] at h
      simp only [if_true] at h
      cases hbtr : bt (dictSet b var w) with
      | none => rw [hbtr] at h; exact absurd h (by simp)
      | some r =>
        obtain ⟨c, okc⟩ := r
        rw [hbtr] at h
        dsimp only at h
        rcases hbt (dictSet b var w) c okc hbtr with ⟨hfail, hsucc⟩
        cases okc with
        | true =>
          rcases hsucc rfl with ⟨ext, hc, _⟩
          have hcne : c ≠ [] := by
            rw [hc, dictSet_of_not_assigned b var w hb]
            intro hnil
            rcases List.append_eq_nil.mp hnil with ⟨hnil1, _⟩
            rcases List.append_eq_nil.mp hnil1 with ⟨_, h2⟩
            exact List.cons_ne_nil _ _ h2
          have hemp : c.isEmpty = false := by
            cases he : c.isEmpty
            · rfl
            · exact absurd (List.isEmpty_iff.mp he) hcne
          rw [hemp] at h
          simp only [Bool.not_false, Bool.true_and, if_true, Option.some.injEq,
            Prod.mk.injEq] at h
          rw [← h.1]
          exact hsound (dictSet b var w) c hcons hbtr
        | false =>
          have hcb2 : c = dictSet b var w := hfail rfl
          simp only [Bool.false_and, if_false] at h
          rw [hcb2, dictDel_dictSet b var w hb] at h
          exact ih b a2 hb hcb h

theorem backtrackFuel_sound (cw : Crossword) (d : Domains) :
    ∀ (fuel : Nat) (a a2 : Assignment), consistent cw a = true →
      backtrackFuel cw d fuel a = some (a2, true) →
      assignment_complete cw a2 = true ∧ consistent cw a2 = true := by
  intro fuel
  induction fuel with
  | zero => intro a a2 _ h; exact absurd h (by simp [backtrackFuel])
  | succ fuel ih =>
    intro a a2 hca h
    rw [backtrackFuel_succ] at h
    cases hcomp : assignment_complete cw a with
    | true =>
      rw [hcomp] at h
      simp only [if_true, Option.some.injEq, Prod.mk.injEq] at h
      rw [← h.1]
      exact ⟨hcomp, hca⟩
    | false =>
      rw [hcomp] at h
      simp only [Bool.false_eq_true, if_false] at h
      cases hsel : select_unassigned_variable cw d a with
      | none =>
        rw [hsel] at h
        simp only [Option.some.injEq, Prod.mk.injEq] at h
        exact absurd h.2.symm (by simp)
      | some var =>
        rw [hsel] at h
        exact tryValues_sound (backtrackFuel cw d fuel) cw d var
          (backtrackFuel_state cw d fuel) ih (order_domain_values cw d var a) a a2
          (select_mem cw d a var hsel).2 hca h

theorem backtrackFuel_isSome (cw : Crossword) (d : Domains) :
    ∀ (fuel : Nat) (a : Assignment),
      cw.variables.countP (fun v => !(assignedb a v)) + 1 ≤ fuel →
      (backtrackFuel cw d fuel a).isSome := by
  intro fuel
  induction fuel with
  | zero => intro a h; omega
  | succ fuel ih =>
    intro a hle
    rw [backtrackFuel_succ]
    cases hcomp : assignment_complete cw a with
    | true => simp
    | false =>
      simp only [Bool.false_eq_true, if_false]
      cases hsel : select_unassigned_variable cw d a with
      | none => simp
      | some var =>
        rcases select_mem cw d a var hsel with ⟨hvm, hvu⟩
        suffices hgen : ∀ (values : List Word) (b : Assignment), assignedb b var = false →
            cw.variables.countP (fun v => !(assignedb b v)) + 1 ≤ fuel + 1 →
            (tryValuesWith (backtrackFuel cw d fuel) cw var values b).isSome by
          exact hgen (order_domain_values cw d var a) a hvu hle
        intro values
        induction values with
        | nil => intro b _ _; rw [tryValuesWith_nil]; rfl
        | cons w rest ihv =>
          intro b hb hble
          rw [tryValuesWith_cons]
          cases hcons : consistent cw (dictSet b var w) with
          | false =>
            simp only [Bool.false_eq_true, if_false]
            rw [dictDel_dictSet b var w hb]
            exact ihv b hb hble
          | true =>
            simp only [if_true]
            have hcount := countP_unassigned_lt b var w cw.variables hvm hb
            have hbt := ih (dictSet b var w) (by omega)
            rcases Option.isSome_iff_exists.mp hbt with ⟨⟨c, okc⟩, hc⟩
            rw [hc]
            dsimp only
            rcases backtrackFuel_state cw d fuel (dictSet b var w) c okc hc with
              ⟨hfail, hsucc⟩
            cases okc with
            | true =>
              rcases hsucc rfl with ⟨ext, hcx, _⟩
              have hcne : c ≠ [] := by
                rw [hcx, dictSet_of_not_assigned b var w hb]
                intro hnil
                rcases List.append_eq_nil.mp hnil with ⟨hnil1, _⟩
                rcases List.append_eq_nil.mp hnil1 with ⟨_, h2⟩
                exact List.cons_ne_nil _ _ h2
              have hemp : c.isEmpty = false := by
                cases he : c.isEmpty
                · rfl
                · exact absurd (List.isEmpty_iff.mp he) hcne
              rw [hemp]
              simp
            | false =>
              have hcb : c = dictSet b var w := hfail rfl
              simp only [Bool.false_and, if_false]
              rw [hcb, dictDel_dictSet b var w hb]
              exact ihv b hb hble

theorem backtrack_isSome (cw : Crossword) (d : Domains) (a : Assignment) :
    ∃ r, backtrackFuel cw d (cw.variables.length + 1) a = some r ∧ backtrack cw d a = r := by
  have h := backtrackFuel_isSome cw d (cw.variables.length + 1) a
    (by
      have := List.countP_le_length (l := cw.variables) (p := fun v => !(assignedb a v))
      omega)
  rcases Option.isSome_iff_exists.mp h with ⟨r, hr⟩
  exact ⟨r, hr, by unfold backtrack; rw [hr]; rfl⟩

theorem backtrackFuel_empty_domain (cw : Crossword) (d : Domains) (fuel : Nat)
    (a : Assignment) (h : ∃ v ∈ cw.variables, assignedb a v = false ∧ d v = []) :
    backtrackFuel cw d (fuel + 1) a = some (a, false) := by
  rcases h with ⟨v, hv, hun, hdv⟩
  rw [backtrackFuel_succ]
  have hcomp : assignment_complete cw a = false := by
    unfold assignment_complete
    apply List.all_eq_false.mpr
    exact ⟨v, hv, by rw [hun]; simp⟩
  rw [hcomp]
  simp only [Bool.false_eq_true, if_false]
  rcases select_isSome cw d a ⟨v, hv, hun⟩ with ⟨m, hm⟩
  rw [hm]
  have hmin := select_min cw d a m hm v hv hun
  have hdm : d m = [] := by
    unfold keyLt at hmin
    push_neg at hmin
    have h0 : (d v).length = 0 := by rw [hdv]; rfl
    have h1 := hmin.1
    have h2 : (d m).length = 0 := by omega
    exact List.length_eq_zero.mp h2
  have hodv : order_domain_values cw d m a = [] := by
    unfold order_domain_values
    rw [hdm]
    rfl
  dsimp only
  rw [hodv, tryValuesWith_nil]


/-! ## Facts about `solve` -/

theorem solve_backtrack (cw : Crossword) (a : Assignment) (h : solve cw = some a) :
    backtrackFuel cw (solveDomains cw) (cw.variables.length + 1) [] = some (a, true) := by
  unfold solve at h
  rcases backtrack_isSome cw (solveDomains cw) [] with ⟨⟨a1, ok⟩, hr, hbk⟩
  rw [hbk] at h
  cases ok with
  | false => exact absurd h (by simp)
  | true =>
    simp only [Option.some.injEq] at h
    rw [← h]
    exact hr

theorem solve_sound (cw : Crossword) (a : Assignment) (h : solve cw = some a) :
    assignment_complete cw a = true ∧ consistent cw a = true :=
  backtrackFuel_sound cw (solveDomains cw) (cw.variables.length + 1) [] a rfl
    (solve_backtrack cw a h)

theorem solveDomains_subset_words (cw : Crossword) (v : Variable) (w : Word)
    (hw : w ∈ solveDomains cw v) : w ∈ cw.words := by
  have h1 := ac3_subset cw (enforce_node_consistency (initDomains cw)) none v hw
  unfold enforce_node_consistency at h1
  exact List.mem_of_mem_filter h1

theorem solve_words (cw : Crossword) (a : Assignment) (h : solve cw = some a) :
    ∀ p ∈ a, p.2 ∈ cw.words := by
  have hbt := solve_backtrack cw a h
  rcases backtrackFuel_state cw (solveDomains cw) (cw.variables.length + 1) [] a true hbt
    with ⟨_, hsucc⟩
  rcases hsucc rfl with ⟨ext, hae, hext⟩
  intro p hp
  rw [hae, List.nil_append] at hp
  exact solveDomains_subset_words cw p.1 p.2 (hext p hp)

theorem solve_none_of_empty_domain (cw : Crossword)
    (h : ∃ v ∈ cw.variables, solveDomains cw v = []) :
    solve cw = none := by
  rcases h with ⟨v, hv, hdv⟩
  have hbt : backtrackFuel cw (solveDomains cw) (cw.variables.length + 1) [] =
      some ([], false) :=
    backtrackFuel_empty_domain cw (solveDomains cw) cw.variables.length []
      ⟨v, hv, rfl, hdv⟩
  unfold solve
  rcases backtrack_isSome cw (solveDomains cw) [] with ⟨r, hr, hbk⟩
  rw [hbt] at hr
  simp only [Option.some.injEq] at hr
  rw [hbk, ← hr]

theorem solve_none_of_no_solution (cw : Crossword)
    (h : ¬ ∃ a : Assignment, assignment_complete cw a = true ∧ consistent cw a = true ∧
      ∀ p ∈ a, p.2 ∈ cw.words) :
    solve cw = none := by
  cases hs : solve cw with
  | none => rfl
  | some a =>
    rcases solve_sound cw a hs with ⟨hc, hcons⟩
    exact absurd ⟨a, hc, hcons, solve_words cw a hs⟩ h


/-! ## Concrete puzzles for witnesses and counterexamples -/

/-- A horizontal 3-slot at the origin. -/
def vA : Variable := ⟨0, 0, Direction.across, 3⟩

/-- A vertical 3-slot crossing `vA` at `vA`'s index 1 / `vB`'s index 0. -/
def vB : Variable := ⟨0, 1, Direction.down, 3⟩

def catW : Word := ['C', 'A', 'T']
def arcW : Word := ['A', 'R', 'C']
def dogW : Word := ['D', 'O', 'G']

/-- The solvable two-slot puzzle of spec §8 (vocabulary CAT/ARC). -/
def P1 : Crossword :=
  { «variables» := [vA, vB], words := [catW, arcW],
    overlaps := fun x y =>
      if x = vA ∧ y = vB then some (1, 0)
      else if x = vB ∧ y = vA then some (0, 1)
      else none }

/-- The unsatisfiable two-slot puzzle of spec §8 (vocabulary CAT/DOG: no
pair agrees at the crossing). -/
def P2 : Crossword :=
  { «variables» := [vA, vB], words := [catW, dogW],
    overlaps := P1.overlaps }

/-- A single free slot with vocabulary [CAT, DOG]. -/
def S1 : Crossword :=
  { «variables» := [vA], words := [catW, dogW], overlaps := fun _ _ => none }

/-- The same slot and vocabulary as `S1`, in the other iteration order. -/
def S2 : Crossword :=
  { «variables» := [vA], words := [dogW, catW], overlaps := fun _ _ => none }

theorem P1_symm : OverlapSymm P1 := by
  intro x y i j h
  simp only [P1] at h
  split_ifs at h with h1 h2
  · simp only [Option.some.injEq, Prod.mk.injEq] at h
    rw [h1.1, h1.2, ← h.1, ← h.2]
    decide
  · simp only [Option.some.injEq, Prod.mk.injEq] at h
    rw [h2.1, h2.2, ← h.1, ← h.2]
    decide

/-! ## The claims -/

/-- C1: any assignment returned by `solve` is complete and passes the
consistency checker: lengths match, words are pairwise distinct, and
overlapping assigned slots agree at the shared positions. -/
theorem C1_solve_sound (cw : Crossword) (a : Assignment) (h : solve cw = some a) :
    assignment_complete cw a = true ∧ consistent cw a = true :=
  solve_sound cw a h

theorem C1_solve_sound_witness :
    solve P1 = some [(vA, catW), (vB, arcW)] ∧
      (assignment_complete P1 [(vA, catW), (vB, arcW)] = true ∧
        consistent P1 [(vA, catW), (vB, arcW)] = true) :=
  ⟨by decide, C1_solve_sound P1 [(vA, catW), (vB, arcW)] (by decide)⟩

/-- C2: if `ac3` (seeded with all arcs) returns true then, for every
ordered neighbor pair `(x, y)` with overlap `(i, j)`, every word left in
`x`'s domain agrees at the shared position with some word left in `y`'s
domain. -/
theorem C2_ac3_postcondition (cw : Crossword) (d : Domains) (hsym : OverlapSymm cw)
    (h : (ac3 cw d none).2 = true) :
    ∀ x ∈ cw.variables, ∀ y ∈ cw.neighbors x, ∀ i j, cw.overlaps x y = some (i, j) →
      ∀ w ∈ (ac3 cw d none).1 x, ∃ v ∈ (ac3 cw d none).1 y,
        w.getD i ' ' = v.getD j ' ' :=
  ac3_arc_consistent cw hsym d h

theorem C2_ac3_postcondition_witness :
    (ac3 P1 (initDomains P1) none).2 = true ∧
      (∀ x ∈ P1.variables, ∀ y ∈ P1.neighbors x, ∀ i j, P1.overlaps x y = some (i, j) →
        ∀ w ∈ (ac3 P1 (initDomains P1) none).1 x, ∃ v ∈ (ac3 P1 (initDomains P1) none).1 y,
          w.getD i ' ' = v.getD j ' ') :=
  ⟨by decide, C2_ac3_postcondition P1 (initDomains P1) P1_symm (by decide)⟩

/-- C3 (counterexample): on the CAT/DOG puzzle, propagation empties `vB`'s
domain and `ac3` reports failure, yet `solve` still enters the backtracking
search (the instrumented call count is 1, not 0): the source discards
`ac3`'s result. -/
theorem C3_counterexample :
    ((ac3 P2 (enforce_node_consistency (initDomains P2)) none).1 vB = [] ∧
      (ac3 P2 (enforce_node_consistency (initDomains P2)) none).2 = false) ∧
      solveBacktrackCalls P2 = 1 := by
  refine ⟨⟨?_, ?_⟩, ?_⟩ <;> decide

/-- C3 (amended): `solve` runs node consistency, then `ac3` on all arcs,
discards the propagation verdict and always enters backtracking; still, if
propagation emptied some slot's domain the search at once returns the
absence value, and whenever no solution exists `solve` returns `none`. -/
theorem C3_solve_no_solution (cw : Crossword) :
    ((∃ v ∈ cw.variables, solveDomains cw v = []) → solve cw = none) ∧
      ((¬ ∃ a : Assignment, assignment_complete cw a = true ∧ consistent cw a = true ∧
        ∀ p ∈ a, p.2 ∈ cw.words) → solve cw = none) :=
  ⟨solve_none_of_empty_domain cw, solve_none_of_no_solution cw⟩

theorem C3_solve_no_solution_witness :
    (∃ v ∈ P2.variables, solveDomains P2 v = []) ∧ solve P2 = none :=
  ⟨by decide, (C3_solve_no_solution P2).1 (by decide)⟩

/-- C4: `revise(x, y)` keeps in `x`'s domain exactly the words with a
support in `y`'s domain at the overlap, reports `true` iff it removed a
word, leaves `y`'s domain unchanged, and is a no-op returning `false` when
the slots do not overlap. -/
theorem C4_revise_spec (cw : Crossword) (d : Domains) (x y : Variable) (hxy : x ≠ y) :
    (∀ i j, cw.overlaps x y = some (i, j) →
      ∀ w, w ∈ (revise cw d x y).1 x ↔
        (w ∈ d x ∧ ∃ v ∈ d y, w.getD i ' ' = v.getD j ' ')) ∧
    ((revise cw d x y).2 = true ↔ ∃ w ∈ d x, w ∉ (revise cw d x y).1 x) ∧
    ((revise cw d x y).1 y = d y) ∧
    (cw.overlaps x y = none → revise cw d x y = (d, false)) :=
  ⟨fun i j hov w => revise_mem cw d x y i j hov w,
   revise_flag cw d x y,
   revise_other cw d x y y (fun h => hxy h.symm),
   revise_none cw d x y⟩

theorem C4_revise_spec_witness :
    vA ≠ vB ∧
      ((∀ i j, P1.overlaps vA vB = some (i, j) →
        ∀ w, w ∈ (revise P1 (initDomains P1) vA vB).1 vA ↔
          (w ∈ initDomains P1 vA ∧ ∃ v ∈ initDomains P1 vB,
            w.getD i ' ' = v.getD j ' ')) ∧
      ((revise P1 (initDomains P1) vA vB).2 = true ↔
        ∃ w ∈ initDomains P1 vA, w ∉ (revise P1 (initDomains P1) vA vB).1 vA) ∧
      ((revise P1 (initDomains P1) vA vB).1 vB = initDomains P1 vB) ∧
      (P1.overlaps vA vB = none → revise P1 (initDomains P1) vA vB = (initDomains P1, false))) :=
  ⟨by decide, C4_revise_spec P1 (initDomains P1) vA vB (by decide)⟩

/-- C5: the node-consistency filter and `ac3` (with any arc seed) only ever
remove words: each slot's domain afterwards is a subset of its domain
before the call. -/
theorem C5_domains_shrink (cw : Crossword) (d : Domains) (arcs : Option (List Arc))
    (v : Variable) :
    (enforce_node_consistency d v ⊆ d v) ∧ ((ac3 cw d arcs).1 v ⊆ d v) :=
  ⟨(List.filter_sublist _).subset, ac3_subset cw d arcs v⟩

theorem C5_domains_shrink_witness :
    (enforce_node_consistency (initDomains P1) vA ⊆ initDomains P1 vA) ∧
      ((ac3 P1 (initDomains P1) none).1 vA ⊆ initDomains P1 vA) :=
  C5_domains_shrink P1 (initDomains P1) none vA

/-- C6: the `ac3` worklist loop terminates: the computable fuel bound
`ac3Bound` (one unit per initial arc plus `|variables| + 1` units per word
a revision can delete) always suffices for the loop to return. -/
theorem C6_ac3_terminates (cw : Crossword) (d : Domains) (arcs : Option (List Arc)) :
    (ac3Loop cw (ac3Bound cw d (initialWorklist cw arcs)) d
      (initialWorklist cw arcs)).isSome = true :=
  ac3Loop_isSome cw (ac3Bound cw d (initialWorklist cw arcs))
    ((initialWorklist cw arcs).map Prod.fst ++ cw.variables) d (initialWorklist cw arcs)
    (fun p hp => List.mem_append_left _ (List.mem_map_of_mem Prod.fst hp))
    (fun v hv => List.mem_append_right _ hv)
    (by unfold ac3Bound; omega)

theorem C6_ac3_terminates_witness :
    (ac3Loop P1 (ac3Bound P1 (initDomains P1) (initialWorklist P1 none)) (initDomains P1)
      (initialWorklist P1 none)).isSome = true :=
  C6_ac3_terminates P1 (initDomains P1) none

/-- C7: `order_domain_values` returns exactly the slot's current domain,
ordered ascending by the number of unassigned neighbors whose domains
contain the word (assigned neighbors are not counted). -/
theorem C7_order_domain_values (cw : Crossword) (d : Domains) (var : Variable)
    (a : Assignment) :
    (order_domain_values cw d var a).Perm (d var) ∧
      (order_domain_values cw d var a).Pairwise
        (fun w1 w2 => lcvKey cw d a var w1 ≤ lcvKey cw d a var w2) :=
  ⟨sortByKey_perm _ (d var), sortByKey_pairwise _ (d var)⟩

theorem C7_order_domain_values_witness :
    (order_domain_values P1 (initDomains P1) vA []).Perm (initDomains P1 vA) ∧
      (order_domain_values P1 (initDomains P1) vA []).Pairwise
        (fun w1 w2 => lcvKey P1 (initDomains P1) [] vA w1 ≤ lcvKey P1 (initDomains P1) [] vA w2) :=
  C7_order_domain_values P1 (initDomains P1) vA []

/-- C8 (counterexample): two puzzles with the same slots, the same overlap
relation and the same vocabulary *as a set* — only the vocabulary's
iteration order differs — make `solve` return different assignments, so
the result is not a function of the puzzle and vocabulary alone. -/
theorem C8_counterexample :
    (S1.variables = S2.variables ∧ S1.words.Perm S2.words ∧
      (∀ x y, S1.overlaps x y = S2.overlaps x y)) ∧ solve S1 ≠ solve S2 :=
  ⟨⟨rfl, by decide, fun _ _ => rfl⟩, by decide⟩

/-- C8 (amended): `solve` is deterministic given the puzzle together with
its iteration orders — equal inputs give equal results — and the variable
selection resolves ties by a consistent order: `min` returns the first
element of the unassigned list attaining the minimal
(domain size, -degree) key. -/
theorem C8_deterministic :
    (∀ cw1 cw2 : Crossword, cw1 = cw2 → solve cw1 = solve cw2) ∧
    (∀ (cw : Crossword) (d : Domains) (a : Assignment) (m : Variable),
      select_unassigned_variable cw d a = some m →
      ∃ l1 l2, cw.variables.filter (fun v => !(assignedb a v)) = l1 ++ m :: l2 ∧
        (∀ u ∈ l1, keyLt cw d m u) ∧ (∀ u ∈ l2, ¬ keyLt cw d u m)) :=
  ⟨fun _ _ h => h ▸ rfl, select_split⟩

theorem C8_deterministic_witness :
    solve S1 = solve S1 ∧
      (∃ l1 l2, S1.variables.filter (fun v => !(assignedb [] v)) = l1 ++ vA :: l2 ∧
        (∀ u ∈ l1, keyLt S1 (initDomains S1) vA u) ∧
        (∀ u ∈ l2, ¬ keyLt S1 (initDomains S1) u vA)) :=
  ⟨C8_deterministic.1 S1 S1 rfl,
   C8_deterministic.2 S1 (initDomains S1) [] vA (by decide)⟩

/-- C9: calling `ac3` with an explicitly empty arcs list behaves exactly
like the no-argument call: the falsy guard replaces it by all arcs of the
puzzle instead of processing zero arcs. -/
theorem C9_ac3_empty_arcs (cw : Crossword) (d : Domains) :
    ac3 cw d (some []) = ac3 cw d none :=
  rfl

theorem C9_ac3_empty_arcs_witness :
    ac3 P1 (initDomains P1) (some []) = ac3 P1 (initDomains P1) none :=
  C9_ac3_empty_arcs P1 (initDomains P1)

/-- C10: when `backtrack` fails, the assignment dict at return equals the
dict passed in: every tentatively added entry was deleted again, whether or
not the tentative assignment passed the consistency check. -/
theorem C10_backtrack_restores (cw : Crossword) (d : Domains) (a : Assignment) :
    ((backtrack cw d a).2 = false → (backtrack cw d a).1 = a) ∧
    (∀ fuel a2, backtrackFuel cw d fuel a = some (a2, false) → a2 = a) := by
  constructor
  · intro h
    rcases backtrack_isSome cw d a with ⟨⟨a1, ok⟩, hr, hbk⟩
    rw [hbk] at h ⊢
    cases ok with
    | true => exact Bool.noConfusion h
    | false => exact (backtrackFuel_state cw d (cw.variables.length + 1) a a1 false hr).1 rfl
  · intro fuel a2 h
    exact (backtrackFuel_state cw d fuel a a2 false h).1 rfl

theorem C10_backtrack_restores_witness :
    (backtrack P2 (solveDomains P2) []).2 = false ∧
      (backtrack P2 (solveDomains P2) []).1 = [] :=
  ⟨by decide, (C10_backtrack_restores P2 (solveDomains P2) []).1 (by decide)⟩

end Generate
